import Mathlib

/-
Verification of the `aesdsocket` TCP log server (src/server/aesdsocket.c).

Shallow embedding conventions:
* Bytes are `Nat`; the packet delimiter `'\n'` is the byte `10`.
* The data file (`/var/tmp/aesdsocketdata`) is a `List Nat` of bytes.
* Every mutex-guarded file operation (`write_data_to_file`,
  `read_and_send_file`) holds `file_mutex` for its entire body in the C
  source, so each is embedded as one atomic state transition.
* Syscall outcomes (open/write/read/send failures) are supplied by the
  environment as explicit parameters, since the C code branches only on
  their results.
-/

set_option autoImplicit false

/-- Result of the `memchr(cur, '\n', remaining)` scan used by the connection
handler (aesdsocket.c line 384): if a newline byte `10` occurs in the list,
returns the prefix through and including the first `10`, paired with the rest
of the list; otherwise `none`. -/
def memchrSplit : List Nat → Option (List Nat × List Nat)
  | [] => none
  | b :: bs =>
    if b = 10 then some ([b], bs)
    else
      match memchrSplit bs with
      | some (c, r) => some (b :: c, r)
      | none => none

/-- Embedding of `write_data_to_file` (aesdsocket.c lines 164-190).
`openErr` is the errno when `open(DATA_FILE, O_WRONLY|O_CREAT|O_APPEND)`
fails (`none` = the open succeeded); `wres` is the result of the single
`write(fd, data, length)` call (`none` = the write returned -1, `some n` =
it returned `n`).  The function appends the bytes the kernel stored and
returns `0` on full success, `-1` otherwise, exactly as the source: a short
write is reported as an error but the stored bytes are not rolled back.
The `file_mutex` is held for the whole body, so this is one atomic step. -/
def write_data_to_file (openErr : Option Nat) (wres : Option Nat)
    (file data : List Nat) : List Nat × Int :=
  match openErr with
  | some _ => (file, -1)
  | none =>
    match wres with
    | none => (file, -1)
    | some n => (file ++ data.take n, if n = data.length then 0 else -1)

/-- Outcome of the read/send loop in `read_and_send_file`: either every byte
of the file is sent to the client, or a `read`/`send` call fails after `k`
bytes were already sent. -/
inductive SendResult where
  | ok
  | fail (k : Nat)
  deriving DecidableEq

/-- Embedding of `read_and_send_file` (aesdsocket.c lines 195-242).
`openErr` is the errno when `open(DATA_FILE, O_RDONLY)` fails (`none` = it
succeeded).  The source treats every open failure the same way: it releases
the mutex and returns `0` having sent nothing (lines 204-209).  On a
successful open the file contents are streamed to the client; a read/send
failure returns `-1` after `k` bytes went out.  Returns (bytes sent to the
client, return code).  The `file_mutex` is held for the whole body, so this
is one atomic step. -/
def read_and_send_file (openErr : Option Nat) (sr : SendResult)
    (file : List Nat) : List Nat × Int :=
  match openErr with
  | some _ => ([], 0)
  | none =>
    match sr with
    | .ok => (file, 0)
    | .fail k => (file.take k, -1)

/-- Per-packet I/O environment for the connection handler: the outcomes of
the syscalls made while committing one completed packet.  `wr` gives the
result of `write(fd, data, len)` as a function of the requested length. -/
structure PacketEnv where
  wOpenErr : Option Nat
  wr : Nat → Option Nat
  rOpenErr : Option Nat
  sr : SendResult

/-- The all-success environment: opens succeed, `write` stores everything,
the whole file is sent. -/
def allOk : PacketEnv := ⟨none, fun l => some l, none, .ok⟩

/-- Environment assigning the all-success outcome to every packet. -/
def allOkEnv : Nat → PacketEnv := fun _ => allOk

/-- Observable action of the connection handler on one completed packet:
an `append` records a call to `write_data_to_file` with the packet bytes and
whether it succeeded; a `reply` records a call to `read_and_send_file` with
the bytes actually sent to the client and whether it succeeded. -/
inductive Event where
  | append (data : List Nat) (ok : Bool)
  | reply (sent : List Nat) (ok : Bool)
  deriving DecidableEq

/-- Result of running the connection handler: next packet ordinal, the
accumulation buffer (`packet_buffer`/`packet_size`), the data file contents,
the append/reply events in order, and whether the handler aborted the
connection on a size-exceeded packet (returning NULL at line 402). -/
structure HandlerResult where
  pktIdx : Nat
  buf : List Nat
  file : List Nat
  events : List Event
  aborted : Bool
  deriving DecidableEq

/-- Fuel-indexed embedding of the inner `while (remaining > 0)` loop of
`connection_handler` (aesdsocket.c lines 378-456) over the bytes of one
`recv` result.  Each iteration consumes at least one byte of `rem`, so
`rem.length` fuel suffices; the fuel only bounds the recursion and never
changes the result (see `connection_handler_data_fuel_irrel`).
Per iteration, mirroring the source: `memchr` for the next newline;
`chunk` is the bytes through the newline, or all of `rem` if none; if
`packet_size + chunk_size > MAX_PACKET_SIZE` the handler aborts the
connection (lines 396-403) without storing anything; otherwise the chunk
is copied into the packet buffer (buffer reallocation is modelled as always
succeeding); on a newline the completed packet is written with
`write_data_to_file` and, only if that returns 0, echoed back with
`read_and_send_file`, then `packet_size` is reset (lines 440-455).
The shutdown flag is modelled as unset throughout. -/
def connection_handler_data_fuel (maxP : Nat) (env : Nat → PacketEnv) :
    Nat → Nat → List Nat → List Nat → List Nat → HandlerResult
  | 0, i, buf, file, _ => ⟨i, buf, file, [], false⟩
  | fuel + 1, i, buf, file, rem =>
    if rem = [] then ⟨i, buf, file, [], false⟩
    else
      match memchrSplit rem with
      | some (chunk, rest) =>
        if buf.length + chunk.length > maxP then ⟨i, buf, file, [], true⟩
        else
          let pkt := buf ++ chunk
          let e := env i
          let w := write_data_to_file e.wOpenErr (e.wr pkt.length) file pkt
          if w.2 = 0 then
            let r := read_and_send_file e.rOpenErr e.sr w.1
            let R := connection_handler_data_fuel maxP env fuel (i + 1) [] w.1 rest
            ⟨R.pktIdx, R.buf, R.file,
              .append pkt true :: .reply r.1 (r.2 = 0) :: R.events, R.aborted⟩
          else
            let R := connection_handler_data_fuel maxP env fuel (i + 1) [] w.1 rest
            ⟨R.pktIdx, R.buf, R.file, .append pkt false :: R.events, R.aborted⟩
      | none =>
        if buf.length + rem.length > maxP then ⟨i, buf, file, [], true⟩
        else ⟨i, buf ++ rem, file, [], false⟩

/-- The inner data-processing loop of `connection_handler` on one received
chunk `rem`, starting from accumulation buffer `buf`, data file `file`, and
packet ordinal `i` (used to index the per-packet I/O environment). -/
def connection_handler_data (maxP : Nat) (env : Nat → PacketEnv)
    (i : Nat) (buf file rem : List Nat) : HandlerResult :=
  connection_handler_data_fuel maxP env rem.length i buf file rem

/-- Embedding of the outer `recv` loop of `connection_handler`
(aesdsocket.c lines 358-457): `chunks` is the list of successive successful
`recv` results (each the bytes returned by one `recv` call); the list ending
models the peer disconnecting (`recv` returning 0).  A size-exceeded abort
stops the connection immediately (the thread returns at line 402); all other
packet-level I/O failures leave the connection open, as in the source. -/
def connection_handler (maxP : Nat) (env : Nat → PacketEnv) :
    Nat → List Nat → List Nat → List (List Nat) → HandlerResult
  | i, buf, file, [] => ⟨i, buf, file, [], false⟩
  | i, buf, file, c :: cs =>
    let R := connection_handler_data maxP env i buf file c
    if R.aborted then ⟨R.pktIdx, R.buf, R.file, R.events, true⟩
    else
      let R2 := connection_handler maxP env R.pktIdx R.buf R.file cs
      ⟨R2.pktIdx, R2.buf, R2.file, R.events ++ R2.events, R2.aborted⟩

/-- Specification-side packet framing, following the spec's words: the
newline-terminated packets of a byte stream, in order, each including its
terminating `10`, together with the trailing bytes not yet terminated.
Used as the refinement target for the chunked assembler. -/
def splitPacketsSpec : List Nat → List (List Nat) × List Nat
  | [] => ([], [])
  | b :: bs =>
    if b = 10 then
      ((b :: []) :: (splitPacketsSpec bs).1, (splitPacketsSpec bs).2)
    else
      match splitPacketsSpec bs with
      | (p :: ps, r) => ((b :: p) :: ps, r)
      | ([], r) => ([], b :: r)

/-- Expected event trace of the handler under the all-success environment:
for each completed packet, one successful append of the packet followed by
one successful reply equal to the file contents right after that append. -/
def pairsOf (file : List Nat) : List (List Nat) → List Event
  | [] => []
  | p :: ps => .append p true :: .reply (file ++ p) true :: pairsOf (file ++ p) ps

/-- The data of the append events of a trace, in order: the packets the
handler committed (or attempted to commit) to the shared log. -/
def appendsOf : List Event → List (List Nat)
  | [] => []
  | .append d _ :: rest => d :: appendsOf rest
  | .reply _ _ :: rest => appendsOf rest

/-- One slot of the `thread_pool` array (aesdsocket.c lines 42-48):
the thread identifier, the `active` liveness flag, and the client socket
descriptor recorded for the handler. -/
structure ThreadInfo where
  thread : Nat
  active : Bool
  client_fd : Nat
  deriving DecidableEq

/-- Embedding of `wait_for_all_threads` (aesdsocket.c lines 305-319): under
`threads_mutex`, every active slot is `pthread_join`ed (joining is modelled
as completing) and marked inactive, and `active_thread_count` is reset to 0.
The state also carries `openFds`, the set of open client socket descriptors:
the source performs no `close`/`shutdown` call on any client socket in this
function, so the descriptor set passes through unchanged.
Returns (pool afterwards, active_thread_count afterwards, open fds
afterwards). -/
def wait_for_all_threads (pool : List ThreadInfo) (openFds : List Nat) :
    List ThreadInfo × Nat × List Nat :=
  (pool.map fun t => { t with active := false }, 0, openFds)

/-- Byte sequence of the ASCII string `timestamp:`. -/
def tsPrefix : List Nat := [116, 105, 109, 101, 115, 116, 97, 109, 112, 58]

/-- Modelled from the spec: the formatted timestamp record appended by the
Timestamp Task — a `timestamp:` prefix, a human-readable date/time
(abstracted as the byte list `datetime`), and a trailing newline.  The
timestamp task belongs to the canonical revision of the server, which is
not under src/ (src/server/aesdsocket.c is the bounded-pool revision
without it). -/
def timestampRecord (datetime : List Nat) : List Nat :=
  tsPrefix ++ datetime ++ [10]

/-- Modelled from the spec: how one timed wait of the Timestamp Task ended —
either the N-second timeout elapsed (carrying the date/time observed at that
wake) or an explicit wake notification arrived (used by shutdown). -/
inductive TsWake where
  | timeout (datetime : List Nat)
  | explicitWake
  deriving DecidableEq

/-- Modelled from the spec: the Timestamp Task loop.  Each element of the
wake list is (the value of the shutdown flag observed at that wake, how the
wait ended).  While the flag is unset, a timeout-caused wake appends exactly
one timestamp record to the log and the loop continues; an explicit wake
appends nothing; a wake observing the flag set exits the loop.  Appends are
modelled as succeeding (errors are logged and non-fatal per the spec, and
are not this claim's subject). -/
def timestampRun (log : List Nat) : List (Bool × TsWake) → List Nat
  | [] => log
  | (sd, w) :: rest =>
    if sd then log
    else
      match w with
      | .timeout dt => timestampRun (log ++ timestampRecord dt) rest
      | .explicitWake => timestampRun log rest

/-- The records the Timestamp Task is expected to have appended for a given
wake list: one per timeout-caused wake before the first wake that observes
the shutdown flag set. -/
def timestampRecords : List (Bool × TsWake) → List Nat
  | [] => []
  | (sd, w) :: rest =>
    if sd then []
    else
      match w with
      | .timeout dt => timestampRecord dt ++ timestampRecords rest
      | .explicitWake => timestampRecords rest

/-- One shared-log operation together with its syscall outcomes: either a
`write_data_to_file` call (data, open errno, write result) or a
`read_and_send_file` call (open errno, read/send outcome).  Each operation
holds `file_mutex` for its whole body in the source, so a concurrent
execution of handlers and the timestamp task is, at the level of the shared
log, a sequence of these operations in lock-acquisition order. -/
inductive LogOp where
  | append (d : List Nat) (openErr : Option Nat) (wres : Option Nat)
  | readAll (openErr : Option Nat) (sr : SendResult)

/-- Run a sequence of shared-log operations in lock-acquisition order,
starting from the given file contents.  Returns the final file contents and
the bytes each `readAll` sent to its sink, in order. -/
def runOps (file : List Nat) : List LogOp → List Nat × List (List Nat)
  | [] => (file, [])
  | .append d oe wres :: rest =>
    runOps (write_data_to_file oe wres file d).1 rest
  | .readAll oe sr :: rest =>
    let sent := (read_and_send_file oe sr file).1
    let R := runOps file rest
    (R.1, sent :: R.2)

/-- An operation whose syscalls all fully succeed. -/
def opOk : LogOp → Prop
  | .append d oe wres => oe = none ∧ wres = some d.length
  | .readAll oe sr => oe = none ∧ sr = .ok

instance : DecidablePred opOk := fun op => by
  cases op <;> simp [opOk] <;> infer_instance

/-- The concatenated data of the append operations of a sequence. -/
def appendedData : List LogOp → List Nat
  | [] => []
  | .append d _ _ :: rest => d ++ appendedData rest
  | .readAll _ _ :: rest => appendedData rest

/-- The expected output of each `readAll` of a sequence: the concatenation
of the initial file with the data of every append that precedes it in
lock-acquisition order. -/
def expectedOutputs (file : List Nat) : List LogOp → List (List Nat)
  | [] => []
  | .append d _ _ :: rest => expectedOutputs (file ++ d) rest
  | .readAll _ _ :: rest => file :: expectedOutputs file rest

/-- Environment for the scenario in which the first packet's
`write_data_to_file` fails to open the data file and every later packet
succeeds fully. -/
def envWriteFail : Nat → PacketEnv :=
  fun i => if i = 0 then ⟨some 13, fun l => some l, none, .ok⟩ else allOk

/-- Environment for the scenario in which the first packet's append succeeds
but its `read_and_send_file` fails after `k` bytes were sent, and every
later packet succeeds fully. -/
def envReadFail (k : Nat) : Nat → PacketEnv :=
  fun i => if i = 0 then ⟨none, fun l => some l, none, .fail k⟩ else allOk

/-- The bytes of `"hello\n"`. -/
def helloChunk : List Nat := [104, 101, 108, 108, 111, 10]

/-- The bytes of `"world\n"`. -/
def worldChunk : List Nat := [119, 111, 114, 108, 100, 10]

/-! ### Facts about the newline scan -/

theorem memchrSplit_cons (b : Nat) (bs : List Nat) :
    memchrSplit (b :: bs) =
      if b = 10 then some ([b], bs)
      else (memchrSplit bs).map (fun p => (b :: p.1, p.2)) := by
  by_cases hb : b = 10
  · simp [memchrSplit, hb]
  · simp only [memchrSplit, if_neg hb]
    cases hm : memchrSplit bs with
    | none => simp
    | some p => obtain ⟨c, r⟩ := p; simp

theorem memchrSplit_eq_none_iff (l : List Nat) :
    memchrSplit l = none ↔ 10 ∉ l := by
  induction l with
  | nil => simp [memchrSplit]
  | cons b bs ih =>
    rw [memchrSplit_cons]
    by_cases hb : b = 10
    · simp [hb]
    · cases hm : memchrSplit bs with
      | none => simp_all [Ne.symm hb]
      | some p => simp_all [Ne.symm hb]

theorem memchrSplit_join (l : List Nat) :
    ∀ c r, memchrSplit l = some (c, r) → c ++ r = l := by
  induction l with
  | nil => intro c r h; exact Option.noConfusion h
  | cons b bs ih =>
    intro c r h
    rw [memchrSplit_cons] at h
    by_cases hb : b = 10
    · rw [if_pos hb] at h
      obtain ⟨hc, hr⟩ := Prod.mk.injEq .. ▸ Option.some.inj h
      subst hc; subst hr; subst hb; rfl
    · rw [if_neg hb] at h
      cases hm : memchrSplit bs with
      | none => rw [hm] at h; simp at h
      | some p =>
        obtain ⟨c', r'⟩ := p
        rw [hm] at h
        simp only [Option.map_some', Option.some.injEq, Prod.mk.injEq] at h
        rw [← h.1, ← h.2]
        simpa using ih c' r' hm

theorem memchrSplit_chunk_ne_nil (l : List Nat) :
    ∀ c r, memchrSplit l = some (c, r) → c ≠ [] := by
  induction l with
  | nil => intro c r h; exact Option.noConfusion h
  | cons b bs ih =>
    intro c r h
    rw [memchrSplit_cons] at h
    by_cases hb : b = 10
    · rw [if_pos hb] at h
      simp only [Option.some.injEq, Prod.mk.injEq] at h
      obtain ⟨hc, _⟩ := h
      subst hc; simp
    · rw [if_neg hb] at h
      cases hm : memchrSplit bs with
      | none => rw [hm] at h; simp at h
      | some q =>
        obtain ⟨c', r'⟩ := q
        rw [hm] at h
        simp only [Option.map_some', Option.some.injEq, Prod.mk.injEq] at h
        obtain ⟨hc, _⟩ := h
        subst hc; simp

theorem memchrSplit_rest_lt (l c r : List Nat)
    (h : memchrSplit l = some (c, r)) : r.length < l.length := by
  have hj := memchrSplit_join l c r h
  have hc : 0 < c.length :=
    List.length_pos.mpr (memchrSplit_chunk_ne_nil l c r h)
  have hlen := congrArg List.length hj
  simp at hlen
  omega

theorem memchrSplit_append_some (s t c r : List Nat)
    (h : memchrSplit s = some (c, r)) :
    memchrSplit (s ++ t) = some (c, r ++ t) := by
  induction s generalizing c with
  | nil => exact Option.noConfusion h
  | cons b bs ih =>
    rw [memchrSplit_cons] at h
    rw [List.cons_append, memchrSplit_cons]
    by_cases hb : b = 10
    · rw [if_pos hb] at h
      simp only [Option.some.injEq, Prod.mk.injEq] at h
      obtain ⟨hc, hr⟩ := h
      subst hc; subst hr
      rw [if_pos hb]
    · rw [if_neg hb] at h
      rw [if_neg hb]
      cases hm : memchrSplit bs with
      | none => rw [hm] at h; simp at h
      | some p =>
        obtain ⟨c', r'⟩ := p
        rw [hm] at h
        simp only [Option.map_some', Option.some.injEq, Prod.mk.injEq] at h
        obtain ⟨hc, hr⟩ := h
        subst hc
        rw [ih c' (hr ▸ hm)]
        simp

theorem memchrSplit_append_not_mem (s t : List Nat) (hs : 10 ∉ s) :
    memchrSplit (s ++ t) = (memchrSplit t).map (fun p => (s ++ p.1, p.2)) := by
  induction s with
  | nil =>
    simp only [List.nil_append]
    cases memchrSplit t with
    | none => simp
    | some p => obtain ⟨c, r⟩ := p; simp
  | cons b bs ih =>
    have hb : b ≠ 10 := fun h => hs (h ▸ List.mem_cons_self b bs)
    have hbs : 10 ∉ bs := fun h => hs (List.mem_cons_of_mem b h)
    rw [List.cons_append, memchrSplit_cons, if_neg hb, ih hbs]
    cases memchrSplit t with
    | none => simp
    | some p => obtain ⟨c, r⟩ := p; simp

theorem memchrSplit_terminated (p : List Nat) (hp : 10 ∉ p) :
    memchrSplit (p ++ [10]) = some (p ++ [10], []) := by
  rw [memchrSplit_append_not_mem p [10] hp]
  simp [memchrSplit]

/-! ### Facts about the specification-side packet framing -/

theorem splitPacketsSpec_nil : splitPacketsSpec [] = ([], []) := rfl

theorem splitPacketsSpec_of_memchr_some (s : List Nat) :
    ∀ c r, memchrSplit s = some (c, r) →
      splitPacketsSpec s =
        (c :: (splitPacketsSpec r).1, (splitPacketsSpec r).2) := by
  induction s with
  | nil => intro c r h; exact Option.noConfusion h
  | cons b bs ih =>
    intro c r h
    rw [memchrSplit_cons] at h
    by_cases hb : b = 10
    · rw [if_pos hb] at h
      simp only [Option.some.injEq, Prod.mk.injEq] at h
      obtain ⟨hc, hr⟩ := h
      subst hc; subst hr
      simp [splitPacketsSpec, hb]
    · rw [if_neg hb] at h
      cases hm : memchrSplit bs with
      | none => rw [hm] at h; simp at h
      | some q =>
        obtain ⟨c', r'⟩ := q
        rw [hm] at h
        simp only [Option.map_some', Option.some.injEq, Prod.mk.injEq] at h
        rw [← h.1, ← h.2]
        simp only [splitPacketsSpec, if_neg hb, ih c' r' hm]

theorem splitPacketsSpec_of_memchr_none (s : List Nat)
    (h : memchrSplit s = none) : splitPacketsSpec s = ([], s) := by
  induction s with
  | nil => rfl
  | cons b bs ih =>
    rw [memchrSplit_cons] at h
    by_cases hb : b = 10
    · rw [if_pos hb] at h; simp at h
    · rw [if_neg hb] at h
      cases hm : memchrSplit bs with
      | none => simp only [splitPacketsSpec, if_neg hb, ih hm]
      | some q => rw [hm] at h; simp at h

theorem splitPacketsSpec_no_newline (s : List Nat) (hs : 10 ∉ s) :
    splitPacketsSpec s = ([], s) :=
  splitPacketsSpec_of_memchr_none s ((memchrSplit_eq_none_iff s).mpr hs)

theorem splitPacketsSpec_terminated (p : List Nat) (hp : 10 ∉ p) :
    splitPacketsSpec (p ++ [10]) = ([p ++ [10]], []) := by
  rw [splitPacketsSpec_of_memchr_some (p ++ [10]) (p ++ [10]) []
    (memchrSplit_terminated p hp)]
  rfl

theorem splitPacketsSpec_append_aux :
    ∀ (n : Nat) (s t : List Nat), s.length ≤ n →
      splitPacketsSpec (s ++ t) =
        ((splitPacketsSpec s).1 ++
            (splitPacketsSpec ((splitPacketsSpec s).2 ++ t)).1,
          (splitPacketsSpec ((splitPacketsSpec s).2 ++ t)).2) := by
  intro n
  induction n with
  | zero =>
    intro s t hs
    have hs0 : s = [] := List.length_eq_zero.mp (Nat.le_zero.mp hs)
    subst hs0
    simp [splitPacketsSpec_nil]
  | succ n ih =>
    intro s t hs
    cases hm : memchrSplit s with
    | none =>
      rw [splitPacketsSpec_of_memchr_none s hm]
      simp
    | some p =>
      obtain ⟨c, r⟩ := p
      have hlt := memchrSplit_rest_lt s c r hm
      have hm2 := memchrSplit_append_some s t c r hm
      rw [splitPacketsSpec_of_memchr_some (s ++ t) c (r ++ t) hm2,
        splitPacketsSpec_of_memchr_some s c r hm,
        ih r t (by omega)]
      simp

theorem splitPacketsSpec_append (s t : List Nat) :
    splitPacketsSpec (s ++ t) =
      ((splitPacketsSpec s).1 ++
          (splitPacketsSpec ((splitPacketsSpec s).2 ++ t)).1,
        (splitPacketsSpec ((splitPacketsSpec s).2 ++ t)).2) :=
  splitPacketsSpec_append_aux s.length s t le_rfl

theorem splitPacketsSpec_leftover_aux :
    ∀ (n : Nat) (s : List Nat), s.length ≤ n → 10 ∉ (splitPacketsSpec s).2 := by
  intro n
  induction n with
  | zero =>
    intro s hs
    have hs0 : s = [] := List.length_eq_zero.mp (Nat.le_zero.mp hs)
    subst hs0; simp [splitPacketsSpec_nil]
  | succ n ih =>
    intro s hs
    cases hm : memchrSplit s with
    | none =>
      rw [splitPacketsSpec_of_memchr_none s hm]
      exact (memchrSplit_eq_none_iff s).mp hm
    | some p =>
      obtain ⟨c, r⟩ := p
      have hlt := memchrSplit_rest_lt s c r hm
      rw [splitPacketsSpec_of_memchr_some s c r hm]
      exact ih r (by omega)

theorem splitPacketsSpec_leftover_no_newline (s : List Nat) :
    10 ∉ (splitPacketsSpec s).2 :=
  splitPacketsSpec_leftover_aux s.length s le_rfl

/-! ### The handler loop: fuel irrelevance and unfolding equations -/

theorem connection_handler_data_fuel_nil (maxP : Nat) (env : Nat → PacketEnv)
    (f i : Nat) (buf file : List Nat) :
    connection_handler_data_fuel maxP env f i buf file [] =
      ⟨i, buf, file, [], false⟩ := by
  cases f <;> simp [connection_handler_data_fuel]

theorem connection_handler_data_fuel_irrel (maxP : Nat) (env : Nat → PacketEnv) :
    ∀ (f1 f2 i : Nat) (buf file rem : List Nat),
      rem.length ≤ f1 → rem.length ≤ f2 →
      connection_handler_data_fuel maxP env f1 i buf file rem =
        connection_handler_data_fuel maxP env f2 i buf file rem := by
  intro f1
  induction f1 with
  | zero =>
    intro f2 i buf file rem h1 h2
    have : rem = [] := List.length_eq_zero.mp (Nat.le_zero.mp h1)
    subst this
    rw [connection_handler_data_fuel_nil, connection_handler_data_fuel_nil]
  | succ f1 ih =>
    intro f2 i buf file rem h1 h2
    cases rem with
    | nil => rw [connection_handler_data_fuel_nil, connection_handler_data_fuel_nil]
    | cons b bs =>
      cases f2 with
      | zero => simp at h2
      | succ f2 =>
        cases hm : memchrSplit (b :: bs) with
        | none => simp only [connection_handler_data_fuel, hm]
        | some p =>
          obtain ⟨chunk, rest⟩ := p
          have hrest : rest.length < bs.length + 1 :=
            by simpa using memchrSplit_rest_lt (b :: bs) chunk rest hm
          simp only [List.length_cons] at h1 h2
          simp only [connection_handler_data_fuel, hm]
          rw [ih f2 (i + 1) []
            (write_data_to_file (env i).wOpenErr ((env i).wr (buf ++ chunk).length)
              file (buf ++ chunk)).1 rest (by omega) (by omega)]

theorem connection_handler_data_nil (maxP : Nat) (env : Nat → PacketEnv)
    (i : Nat) (buf file : List Nat) :
    connection_handler_data maxP env i buf file [] = ⟨i, buf, file, [], false⟩ :=
  rfl

theorem connection_handler_data_eq_some (maxP : Nat) (env : Nat → PacketEnv)
    (i : Nat) (buf file rem chunk rest : List Nat)
    (hm : memchrSplit rem = some (chunk, rest)) :
    connection_handler_data maxP env i buf file rem =
      if buf.length + chunk.length > maxP then ⟨i, buf, file, [], true⟩
      else
        let pkt := buf ++ chunk
        let e := env i
        let w := write_data_to_file e.wOpenErr (e.wr pkt.length) file pkt
        if w.2 = 0 then
          let r := read_and_send_file e.rOpenErr e.sr w.1
          let R := connection_handler_data maxP env (i + 1) [] w.1 rest
          ⟨R.pktIdx, R.buf, R.file,
            .append pkt true :: .reply r.1 (r.2 = 0) :: R.events, R.aborted⟩
        else
          let R := connection_handler_data maxP env (i + 1) [] w.1 rest
          ⟨R.pktIdx, R.buf, R.file, .append pkt false :: R.events, R.aborted⟩ := by
  cases rem with
  | nil => exact Option.noConfusion hm
  | cons b bs =>
    have hrest : rest.length ≤ bs.length :=
      by have := memchrSplit_rest_lt (b :: bs) chunk rest hm; simpa using
        Nat.lt_succ_iff.mp (by simpa using this)
    show connection_handler_data_fuel maxP env (bs.length + 1) i buf file (b :: bs) = _
    simp only [connection_handler_data_fuel, hm]
    rw [connection_handler_data_fuel_irrel maxP env bs.length rest.length (i + 1) []
      _ rest hrest le_rfl]
    rfl

theorem connection_handler_data_eq_none (maxP : Nat) (env : Nat → PacketEnv)
    (i : Nat) (buf file rem : List Nat)
    (hm : memchrSplit rem = none) (hne : rem ≠ []) :
    connection_handler_data maxP env i buf file rem =
      if buf.length + rem.length > maxP then ⟨i, buf, file, [], true⟩
      else ⟨i, buf ++ rem, file, [], false⟩ := by
  cases rem with
  | nil => exact absurd rfl hne
  | cons b bs =>
    show connection_handler_data_fuel maxP env (bs.length + 1) i buf file (b :: bs) = _
    simp only [connection_handler_data_fuel, hm]
    rfl

theorem connection_handler_nil (maxP : Nat) (env : Nat → PacketEnv)
    (i : Nat) (buf file : List Nat) :
    connection_handler maxP env i buf file [] = ⟨i, buf, file, [], false⟩ := rfl

theorem connection_handler_cons (maxP : Nat) (env : Nat → PacketEnv)
    (i : Nat) (buf file : List Nat) (c : List Nat) (cs : List (List Nat)) :
    connection_handler maxP env i buf file (c :: cs) =
      let R := connection_handler_data maxP env i buf file c
      if R.aborted then ⟨R.pktIdx, R.buf, R.file, R.events, true⟩
      else
        let R2 := connection_handler maxP env R.pktIdx R.buf R.file cs
        ⟨R2.pktIdx, R2.buf, R2.file, R.events ++ R2.events, R2.aborted⟩ := rfl

/-! ### The inner loop refines the specification-side framing -/

theorem appendsOf_append (e1 e2 : List Event) :
    appendsOf (e1 ++ e2) = appendsOf e1 ++ appendsOf e2 := by
  induction e1 with
  | nil => rfl
  | cons e es ih => cases e <;> simp [appendsOf, ih]

theorem connection_handler_data_appends_aux :
    ∀ (n : Nat) (rem : List Nat), rem.length ≤ n →
    ∀ (maxP : Nat) (env : Nat → PacketEnv) (i : Nat) (buf file : List Nat),
      10 ∉ buf →
      (connection_handler_data maxP env i buf file rem).aborted = false →
      appendsOf (connection_handler_data maxP env i buf file rem).events
          = (splitPacketsSpec (buf ++ rem)).1
        ∧ (connection_handler_data maxP env i buf file rem).buf
          = (splitPacketsSpec (buf ++ rem)).2
        ∧ 10 ∉ (connection_handler_data maxP env i buf file rem).buf := by
  intro n
  induction n with
  | zero =>
    intro rem hlen maxP env i buf file hbuf hab
    have h0 : rem = [] := List.length_eq_zero.mp (Nat.le_zero.mp hlen)
    subst h0
    rw [connection_handler_data_nil]
    rw [List.append_nil, splitPacketsSpec_no_newline buf hbuf]
    exact ⟨rfl, rfl, hbuf⟩
  | succ n ih =>
    intro rem hlen maxP env i buf file hbuf hab
    cases rem with
    | nil =>
      rw [connection_handler_data_nil]
      rw [List.append_nil, splitPacketsSpec_no_newline buf hbuf]
      exact ⟨rfl, rfl, hbuf⟩
    | cons b bs =>
      cases hm : memchrSplit (b :: bs) with
      | none =>
        have hnom : 10 ∉ (b :: bs) := (memchrSplit_eq_none_iff _).mp hm
        have heq := connection_handler_data_eq_none maxP env i buf file
          (b :: bs) hm (by simp)
        by_cases hsz : buf.length + (b :: bs).length > maxP
        · rw [heq, if_pos hsz] at hab; simp at hab
        · rw [heq, if_neg hsz] at hab ⊢
          have hnobr : 10 ∉ buf ++ b :: bs := by
            intro hmem
            rcases List.mem_append.mp hmem with h | h
            · exact hbuf h
            · exact hnom h
          rw [splitPacketsSpec_no_newline _ hnobr]
          exact ⟨rfl, rfl, hnobr⟩
      | some p =>
        obtain ⟨chunk, rest⟩ := p
        have heq := connection_handler_data_eq_some maxP env i buf file
          (b :: bs) chunk rest hm
        by_cases hsz : buf.length + chunk.length > maxP
        · rw [heq, if_pos hsz] at hab; simp at hab
        · have hsplit : splitPacketsSpec (buf ++ (b :: bs)) =
              ((buf ++ chunk) :: (splitPacketsSpec rest).1,
                (splitPacketsSpec rest).2) := by
            have hmm : memchrSplit (buf ++ (b :: bs)) = some (buf ++ chunk, rest) := by
              rw [memchrSplit_append_not_mem _ _ hbuf, hm]; rfl
            rw [splitPacketsSpec_of_memchr_some _ _ _ hmm]
          have hrest : rest.length ≤ n := by
            have hlt := memchrSplit_rest_lt (b :: bs) chunk rest hm
            simp only [List.length_cons] at hlt hlen
            omega
          rw [heq, if_neg hsz] at hab ⊢
          dsimp only at hab ⊢
          by_cases hw : (write_data_to_file (env i).wOpenErr
              ((env i).wr (buf ++ chunk).length) file (buf ++ chunk)).2 = 0
          · rw [if_pos hw] at hab ⊢
            dsimp only at hab ⊢
            obtain ⟨h1, h2, h3⟩ := ih rest hrest maxP env (i + 1) [] _
              (by simp) hab
            rw [hsplit]
            refine ⟨?_, ?_, h3⟩
            · simp only [appendsOf, h1]
              simp
            · simpa using h2
          · rw [if_neg hw] at hab ⊢
            dsimp only at hab ⊢
            obtain ⟨h1, h2, h3⟩ := ih rest hrest maxP env (i + 1) [] _
              (by simp) hab
            rw [hsplit]
            refine ⟨?_, ?_, h3⟩
            · simp only [appendsOf, h1]
              simp
            · simpa using h2

theorem connection_handler_data_appends (maxP : Nat) (env : Nat → PacketEnv)
    (i : Nat) (buf file rem : List Nat) (hbuf : 10 ∉ buf)
    (hab : (connection_handler_data maxP env i buf file rem).aborted = false) :
    appendsOf (connection_handler_data maxP env i buf file rem).events
        = (splitPacketsSpec (buf ++ rem)).1
      ∧ (connection_handler_data maxP env i buf file rem).buf
        = (splitPacketsSpec (buf ++ rem)).2
      ∧ 10 ∉ (connection_handler_data maxP env i buf file rem).buf :=
  connection_handler_data_appends_aux rem.length rem le_rfl maxP env i buf file
    hbuf hab

theorem connection_handler_appends_general :
    ∀ (cs : List (List Nat)) (maxP : Nat) (env : Nat → PacketEnv)
      (i : Nat) (buf file : List Nat), 10 ∉ buf →
      (connection_handler maxP env i buf file cs).aborted = false →
      appendsOf (connection_handler maxP env i buf file cs).events
          = (splitPacketsSpec (buf ++ cs.flatten)).1
        ∧ (connection_handler maxP env i buf file cs).buf
          = (splitPacketsSpec (buf ++ cs.flatten)).2
        ∧ 10 ∉ (connection_handler maxP env i buf file cs).buf := by
  intro cs
  induction cs with
  | nil =>
    intro maxP env i buf file hbuf hab
    rw [connection_handler_nil]
    rw [List.flatten_nil, List.append_nil, splitPacketsSpec_no_newline buf hbuf]
    exact ⟨rfl, rfl, hbuf⟩
  | cons c cs ih =>
    intro maxP env i buf file hbuf hab
    rw [connection_handler_cons] at hab ⊢
    dsimp only at hab ⊢
    by_cases hR : (connection_handler_data maxP env i buf file c).aborted
    · rw [if_pos hR] at hab; simp at hab
    · rw [if_neg hR] at hab ⊢
      dsimp only at hab ⊢
      obtain ⟨h1, h2, h3⟩ := connection_handler_data_appends maxP env i buf file c
        hbuf (Bool.not_eq_true _ ▸ hR)
      obtain ⟨g1, g2, g3⟩ := ih maxP env
        (connection_handler_data maxP env i buf file c).pktIdx
        (connection_handler_data maxP env i buf file c).buf
        (connection_handler_data maxP env i buf file c).file h3 hab
      have hjoin : buf ++ (c :: cs).flatten = (buf ++ c) ++ cs.flatten := by
        rw [List.flatten_cons, List.append_assoc]
      rw [hjoin, splitPacketsSpec_append (buf ++ c) cs.flatten]
      refine ⟨?_, ?_, g3⟩
      · rw [appendsOf_append, h1, g1, h2]
      · rw [g2, h2]

/-! ### Behaviour under the all-success environment -/

theorem write_data_to_file_allOk (file data : List Nat) :
    write_data_to_file none (some data.length) file data = (file ++ data, 0) := by
  simp [write_data_to_file]

theorem read_and_send_file_allOk (file : List Nat) :
    read_and_send_file none .ok file = (file, 0) := rfl

theorem pairsOf_append (ps qs : List (List Nat)) :
    ∀ f, pairsOf f (ps ++ qs) = pairsOf f ps ++ pairsOf (f ++ ps.flatten) qs := by
  induction ps with
  | nil => intro f; simp [pairsOf]
  | cons p ps ih =>
    intro f
    show Event.append p true :: Event.reply (f ++ p) true ::
        pairsOf (f ++ p) (ps ++ qs) = _
    rw [ih (f ++ p)]
    simp [pairsOf, List.append_assoc]

theorem splitPacketsSpec_fst_nil (s : List Nat)
    (h : (splitPacketsSpec s).1 = []) : (splitPacketsSpec s).2 = s := by
  cases hm : memchrSplit s with
  | none => rw [splitPacketsSpec_of_memchr_none s hm]
  | some p =>
    obtain ⟨c, r⟩ := p
    rw [splitPacketsSpec_of_memchr_some s c r hm] at h
    exact absurd h (by simp)

theorem connection_handler_data_allOk_aux :
    ∀ (n : Nat) (rem : List Nat), rem.length ≤ n →
    ∀ (maxP i : Nat) (buf file : List Nat), 10 ∉ buf →
      (connection_handler_data maxP allOkEnv i buf file rem).aborted = false →
      (connection_handler_data maxP allOkEnv i buf file rem).events
          = pairsOf file (splitPacketsSpec (buf ++ rem)).1
        ∧ (connection_handler_data maxP allOkEnv i buf file rem).file
          = file ++ (splitPacketsSpec (buf ++ rem)).1.flatten := by
  intro n
  induction n with
  | zero =>
    intro rem hlen maxP i buf file hbuf hab
    have h0 : rem = [] := List.length_eq_zero.mp (Nat.le_zero.mp hlen)
    subst h0
    rw [connection_handler_data_nil]
    rw [List.append_nil, splitPacketsSpec_no_newline buf hbuf]
    simp [pairsOf]
  | succ n ih =>
    intro rem hlen maxP i buf file hbuf hab
    cases rem with
    | nil =>
      rw [connection_handler_data_nil]
      rw [List.append_nil, splitPacketsSpec_no_newline buf hbuf]
      simp [pairsOf]
    | cons b bs =>
      cases hm : memchrSplit (b :: bs) with
      | none =>
        have hnom : 10 ∉ (b :: bs) := (memchrSplit_eq_none_iff _).mp hm
        have heq := connection_handler_data_eq_none maxP allOkEnv i buf file
          (b :: bs) hm (by simp)
        by_cases hsz : buf.length + (b :: bs).length > maxP
        · rw [heq, if_pos hsz] at hab; simp at hab
        · rw [heq, if_neg hsz] at hab ⊢
          have hnobr : 10 ∉ buf ++ b :: bs := by
            intro hmem
            rcases List.mem_append.mp hmem with h | h
            · exact hbuf h
            · exact hnom h
          rw [splitPacketsSpec_no_newline _ hnobr]
          simp [pairsOf]
      | some p =>
        obtain ⟨chunk, rest⟩ := p
        have heq := connection_handler_data_eq_some maxP allOkEnv i buf file
          (b :: bs) chunk rest hm
        by_cases hsz : buf.length + chunk.length > maxP
        · rw [heq, if_pos hsz] at hab; simp at hab
        · have hsplit : splitPacketsSpec (buf ++ (b :: bs)) =
              ((buf ++ chunk) :: (splitPacketsSpec rest).1,
                (splitPacketsSpec rest).2) := by
            have hmm : memchrSplit (buf ++ (b :: bs)) = some (buf ++ chunk, rest) := by
              rw [memchrSplit_append_not_mem _ _ hbuf, hm]; rfl
            rw [splitPacketsSpec_of_memchr_some _ _ _ hmm]
          have hrest : rest.length ≤ n := by
            have hlt := memchrSplit_rest_lt (b :: bs) chunk rest hm
            simp only [List.length_cons] at hlt hlen
            omega
          have hwrite : write_data_to_file (allOkEnv i).wOpenErr
              ((allOkEnv i).wr (buf ++ chunk).length) file (buf ++ chunk)
                = (file ++ (buf ++ chunk), 0) := by
            show write_data_to_file none (some (buf ++ chunk).length)
              file (buf ++ chunk) = _
            exact write_data_to_file_allOk file (buf ++ chunk)
          have hw : (write_data_to_file (allOkEnv i).wOpenErr
              ((allOkEnv i).wr (buf ++ chunk).length) file (buf ++ chunk)).2 = 0 := by
            rw [hwrite]
          rw [heq, if_neg hsz] at hab ⊢
          dsimp only at hab ⊢
          rw [if_pos hw] at hab ⊢
          dsimp only at hab ⊢
          rw [hwrite] at hab ⊢
          dsimp only at hab ⊢
          obtain ⟨h1, h2⟩ := ih rest hrest maxP (i + 1) []
            (file ++ (buf ++ chunk)) (by simp) hab
          rw [hsplit]
          constructor
          · simp only [pairsOf]
            rw [h1]
            simp [read_and_send_file, allOkEnv, allOk]
          · rw [h2]
            simp

theorem connection_handler_data_allOk (maxP i : Nat) (buf file rem : List Nat)
    (hbuf : 10 ∉ buf)
    (hab : (connection_handler_data maxP allOkEnv i buf file rem).aborted = false) :
    (connection_handler_data maxP allOkEnv i buf file rem).events
        = pairsOf file (splitPacketsSpec (buf ++ rem)).1
      ∧ (connection_handler_data maxP allOkEnv i buf file rem).file
        = file ++ (splitPacketsSpec (buf ++ rem)).1.flatten :=
  connection_handler_data_allOk_aux rem.length rem le_rfl maxP i buf file hbuf hab

theorem connection_handler_allOk :
    ∀ (cs : List (List Nat)) (maxP i : Nat) (buf file : List Nat), 10 ∉ buf →
      (connection_handler maxP allOkEnv i buf file cs).aborted = false →
      (connection_handler maxP allOkEnv i buf file cs).events
          = pairsOf file (splitPacketsSpec (buf ++ cs.flatten)).1
        ∧ (connection_handler maxP allOkEnv i buf file cs).file
          = file ++ (splitPacketsSpec (buf ++ cs.flatten)).1.flatten := by
  intro cs
  induction cs with
  | nil =>
    intro maxP i buf file hbuf hab
    rw [connection_handler_nil]
    rw [List.flatten_nil, List.append_nil, splitPacketsSpec_no_newline buf hbuf]
    simp [pairsOf]
  | cons c cs ih =>
    intro maxP i buf file hbuf hab
    rw [connection_handler_cons] at hab ⊢
    dsimp only at hab ⊢
    by_cases hR : (connection_handler_data maxP allOkEnv i buf file c).aborted
    · rw [if_pos hR] at hab; simp at hab
    · rw [if_neg hR] at hab ⊢
      dsimp only at hab ⊢
      obtain ⟨hA1, hA2, hA3⟩ := connection_handler_data_appends maxP allOkEnv i
        buf file c hbuf (Bool.not_eq_true _ ▸ hR)
      obtain ⟨h1, h2⟩ := connection_handler_data_allOk maxP i buf file c hbuf
        (Bool.not_eq_true _ ▸ hR)
      obtain ⟨g1, g2⟩ := ih maxP
        (connection_handler_data maxP allOkEnv i buf file c).pktIdx
        (connection_handler_data maxP allOkEnv i buf file c).buf
        (connection_handler_data maxP allOkEnv i buf file c).file hA3 hab
      have hjoin : buf ++ (c :: cs).flatten = (buf ++ c) ++ cs.flatten := by
        rw [List.flatten_cons, List.append_assoc]
      rw [hjoin, splitPacketsSpec_append (buf ++ c) cs.flatten]
      constructor
      · rw [g1, h1, hA2, h2]
        dsimp only
        rw [pairsOf_append]
      · rw [g2, h2, hA2]
        dsimp only
        simp [List.append_assoc]

/-! ### Size bounds rule out the abort path -/

theorem connection_handler_data_no_abort_aux :
    ∀ (n : Nat) (rem : List Nat), rem.length ≤ n →
    ∀ (maxP : Nat) (env : Nat → PacketEnv) (i : Nat) (buf file : List Nat),
      10 ∉ buf →
      (∀ q ∈ (splitPacketsSpec (buf ++ rem)).1, q.length ≤ maxP) →
      (splitPacketsSpec (buf ++ rem)).2.length ≤ maxP →
      (connection_handler_data maxP env i buf file rem).aborted = false := by
  intro n
  induction n with
  | zero =>
    intro rem hlen maxP env i buf file hbuf hpk hleft
    have h0 : rem = [] := List.length_eq_zero.mp (Nat.le_zero.mp hlen)
    subst h0
    rw [connection_handler_data_nil]
  | succ n ih =>
    intro rem hlen maxP env i buf file hbuf hpk hleft
    cases rem with
    | nil => rw [connection_handler_data_nil]
    | cons b bs =>
      cases hm : memchrSplit (b :: bs) with
      | none =>
        have hnom : 10 ∉ (b :: bs) := (memchrSplit_eq_none_iff _).mp hm
        have hnobr : 10 ∉ buf ++ b :: bs := by
          intro hmem
          rcases List.mem_append.mp hmem with h | h
          · exact hbuf h
          · exact hnom h
        rw [splitPacketsSpec_no_newline _ hnobr] at hleft
        have hsz : ¬ buf.length + (b :: bs).length > maxP := by
          simp only [List.length_append] at hleft
          omega
        rw [connection_handler_data_eq_none maxP env i buf file (b :: bs) hm
          (by simp), if_neg hsz]
      | some p =>
        obtain ⟨chunk, rest⟩ := p
        have hsplit : splitPacketsSpec (buf ++ (b :: bs)) =
            ((buf ++ chunk) :: (splitPacketsSpec rest).1,
              (splitPacketsSpec rest).2) := by
          have hmm : memchrSplit (buf ++ (b :: bs)) = some (buf ++ chunk, rest) := by
            rw [memchrSplit_append_not_mem _ _ hbuf, hm]; rfl
          rw [splitPacketsSpec_of_memchr_some _ _ _ hmm]
        rw [hsplit] at hpk hleft
        have hsz : ¬ buf.length + chunk.length > maxP := by
          have := hpk (buf ++ chunk) (by simp)
          simp only [List.length_append] at this
          omega
        have hrest : rest.length ≤ n := by
          have hlt := memchrSplit_rest_lt (b :: bs) chunk rest hm
          simp only [List.length_cons] at hlt hlen
          omega
        have hrec : ∀ file2 i2,
            (connection_handler_data maxP env i2 [] file2 rest).aborted = false := by
          intro file2 i2
          refine ih rest hrest maxP env i2 [] file2 (by simp) ?_ ?_
          · intro q hq
            exact hpk q (List.mem_cons_of_mem _ (by simpa using hq))
          · simpa using hleft
        rw [connection_handler_data_eq_some maxP env i buf file (b :: bs)
          chunk rest hm, if_neg hsz]
        dsimp only
        by_cases hw : (write_data_to_file (env i).wOpenErr
            ((env i).wr (buf ++ chunk).length) file (buf ++ chunk)).2 = 0
        · rw [if_pos hw]
          dsimp only
          exact hrec _ _
        · rw [if_neg hw]
          dsimp only
          exact hrec _ _

theorem connection_handler_data_no_abort (maxP : Nat) (env : Nat → PacketEnv)
    (i : Nat) (buf file rem : List Nat) (hbuf : 10 ∉ buf)
    (hpk : ∀ q ∈ (splitPacketsSpec (buf ++ rem)).1, q.length ≤ maxP)
    (hleft : (splitPacketsSpec (buf ++ rem)).2.length ≤ maxP) :
    (connection_handler_data maxP env i buf file rem).aborted = false :=
  connection_handler_data_no_abort_aux rem.length rem le_rfl maxP env i buf file
    hbuf hpk hleft

theorem connection_handler_no_abort :
    ∀ (cs : List (List Nat)) (maxP : Nat) (env : Nat → PacketEnv)
      (i : Nat) (buf file : List Nat), 10 ∉ buf →
      (∀ q ∈ (splitPacketsSpec (buf ++ cs.flatten)).1, q.length ≤ maxP) →
      (splitPacketsSpec (buf ++ cs.flatten)).2.length ≤ maxP →
      (connection_handler maxP env i buf file cs).aborted = false := by
  intro cs
  induction cs with
  | nil => intro maxP env i buf file hbuf hpk hleft; rw [connection_handler_nil]
  | cons c cs ih =>
    intro maxP env i buf file hbuf hpk hleft
    have hjoin : buf ++ (c :: cs).flatten = (buf ++ c) ++ cs.flatten := by
      rw [List.flatten_cons, List.append_assoc]
    rw [hjoin, splitPacketsSpec_append (buf ++ c) cs.flatten] at hpk hleft
    dsimp only at hpk hleft
    have hrc10 : 10 ∉ (splitPacketsSpec (buf ++ c)).2 :=
      splitPacketsSpec_leftover_no_newline (buf ++ c)
    have hrcLen : (splitPacketsSpec (buf ++ c)).2.length ≤ maxP := by
      cases hq : (splitPacketsSpec ((splitPacketsSpec (buf ++ c)).2 ++
          cs.flatten)).1 with
      | nil =>
        have h2 := splitPacketsSpec_fst_nil _ hq
        rw [h2] at hleft
        simp only [List.length_append] at hleft
        omega
      | cons q qs =>
        have hqmem : q ∈ (splitPacketsSpec (buf ++ c)).1 ++
            (splitPacketsSpec ((splitPacketsSpec (buf ++ c)).2 ++ cs.flatten)).1 := by
          rw [hq]
          exact List.mem_append_right _ (List.mem_cons_self q qs)
        have hqle := hpk q hqmem
        cases hmt : memchrSplit cs.flatten with
        | none =>
          have : memchrSplit ((splitPacketsSpec (buf ++ c)).2 ++ cs.flatten)
              = none := by
            rw [memchrSplit_append_not_mem _ _ hrc10, hmt]; rfl
          rw [splitPacketsSpec_of_memchr_none _ this] at hq
          exact absurd hq (by simp)
        | some pp =>
          obtain ⟨cT, rT⟩ := pp
          have hmm : memchrSplit ((splitPacketsSpec (buf ++ c)).2 ++ cs.flatten)
              = some ((splitPacketsSpec (buf ++ c)).2 ++ cT, rT) := by
            rw [memchrSplit_append_not_mem _ _ hrc10, hmt]; rfl
          rw [splitPacketsSpec_of_memchr_some _ _ _ hmm] at hq
          have hqeq : q = (splitPacketsSpec (buf ++ c)).2 ++ cT := by
            have := congrArg (fun l => l.headI) hq
            simpa using this.symm
          rw [hqeq] at hqle
          simp only [List.length_append] at hqle
          omega
    have hR1 : (connection_handler_data maxP env i buf file c).aborted = false := by
      refine connection_handler_data_no_abort maxP env i buf file c hbuf ?_ hrcLen
      intro q hq
      exact hpk q (List.mem_append_left _ hq)
    obtain ⟨hA1, hA2, hA3⟩ := connection_handler_data_appends maxP env i buf
      file c hbuf hR1
    rw [connection_handler_cons]
    dsimp only
    rw [if_neg (by rw [hR1]; exact Bool.false_ne_true)]
    dsimp only
    refine ih maxP env _ _ _ hA3 ?_ ?_
    · intro q hq
      rw [hA2] at hq
      exact hpk q (List.mem_append_right _ hq)
    · rw [hA2]
      exact hleft

/-! ### An oversize first packet aborts the connection untouched -/

theorem connection_handler_data_oversize (maxP : Nat) (env : Nat → PacketEnv)
    (i : Nat) (buf file rem : List Nat) (q : List Nat) (qs : List (List Nat))
    (hbuf : 10 ∉ buf)
    (hq : (splitPacketsSpec (buf ++ rem)).1 = q :: qs)
    (hover : q.length > maxP) :
    connection_handler_data maxP env i buf file rem = ⟨i, buf, file, [], true⟩ := by
  cases hm : memchrSplit rem with
  | none =>
    have hnom : 10 ∉ rem := (memchrSplit_eq_none_iff _).mp hm
    have hnobr : 10 ∉ buf ++ rem := by
      intro hmem
      rcases List.mem_append.mp hmem with h | h
      · exact hbuf h
      · exact hnom h
    rw [splitPacketsSpec_no_newline _ hnobr] at hq
    exact absurd hq (by simp)
  | some p =>
    obtain ⟨chunk, rest⟩ := p
    have hmm : memchrSplit (buf ++ rem) = some (buf ++ chunk, rest) := by
      rw [memchrSplit_append_not_mem _ _ hbuf, hm]; rfl
    rw [splitPacketsSpec_of_memchr_some _ _ _ hmm] at hq
    have hqeq : q = buf ++ chunk := by
      have := congrArg (fun l => l.headI) hq
      simpa using this.symm
    have hsz : buf.length + chunk.length > maxP := by
      rw [hqeq] at hover
      simpa using hover
    rw [connection_handler_data_eq_some maxP env i buf file rem chunk rest hm,
      if_pos hsz]

theorem connection_handler_oversize :
    ∀ (cs : List (List Nat)) (maxP : Nat) (env : Nat → PacketEnv)
      (i : Nat) (buf file : List Nat) (q : List Nat) (qs : List (List Nat)),
      10 ∉ buf →
      (splitPacketsSpec (buf ++ cs.flatten)).1 = q :: qs →
      q.length > maxP →
      (connection_handler maxP env i buf file cs).events = []
        ∧ (connection_handler maxP env i buf file cs).file = file
        ∧ (connection_handler maxP env i buf file cs).aborted = true := by
  intro cs
  induction cs with
  | nil =>
    intro maxP env i buf file q qs hbuf hq hover
    rw [List.flatten_nil, List.append_nil,
      splitPacketsSpec_no_newline buf hbuf] at hq
    exact absurd hq (by simp)
  | cons c cs ih =>
    intro maxP env i buf file q qs hbuf hq hover
    have hjoin : buf ++ (c :: cs).flatten = (buf ++ c) ++ cs.flatten := by
      rw [List.flatten_cons, List.append_assoc]
    cases hm : memchrSplit c with
    | some p =>
      obtain ⟨chunk, rest⟩ := p
      have hmc : memchrSplit (buf ++ c) = some (buf ++ chunk, rest) := by
        rw [memchrSplit_append_not_mem _ _ hbuf, hm]; rfl
      have hmm : memchrSplit ((buf ++ c) ++ cs.flatten)
          = some (buf ++ chunk, rest ++ cs.flatten) :=
        memchrSplit_append_some _ _ _ _ hmc
      rw [hjoin, splitPacketsSpec_of_memchr_some _ _ _ hmm] at hq
      have hqeq : q = buf ++ chunk := by
        have := congrArg (fun l => l.headI) hq
        simpa using this.symm
      have habort := connection_handler_data_oversize maxP env i buf file c
        (buf ++ chunk) (splitPacketsSpec rest).1 hbuf
        (by rw [splitPacketsSpec_of_memchr_some _ _ _ hmc]) (hqeq ▸ hover)
      rw [connection_handler_cons]
      dsimp only
      rw [habort]
      simp
    | none =>
      have hnom : 10 ∉ c := (memchrSplit_eq_none_iff _).mp hm
      have hnobc : 10 ∉ buf ++ c := by
        intro hmem
        rcases List.mem_append.mp hmem with h | h
        · exact hbuf h
        · exact hnom h
      by_cases hcnil : c = []
      · subst hcnil
        have hR : connection_handler_data maxP env i buf file []
            = ⟨i, buf, file, [], false⟩ := connection_handler_data_nil maxP env i buf file
        rw [connection_handler_cons]
        dsimp only
        rw [hR]
        dsimp only
        rw [if_neg (by exact Bool.false_ne_true)]
        dsimp only
        have := ih maxP env i buf file q qs hbuf (by simpa using hq) hover
        obtain ⟨e1, e2, e3⟩ := this
        refine ⟨by simpa using e1, by simpa using e2, by simpa using e3⟩
      · by_cases hsz : buf.length + c.length > maxP
        · have hR := connection_handler_data_eq_none maxP env i buf file c hm hcnil
          rw [connection_handler_cons]
          dsimp only
          rw [hR, if_pos hsz]
          simp
        · have hR := connection_handler_data_eq_none maxP env i buf file c hm hcnil
          rw [connection_handler_cons]
          dsimp only
          rw [hR, if_neg hsz]
          dsimp only
          rw [if_neg (by exact Bool.false_ne_true)]
          dsimp only
          have hq2 : (splitPacketsSpec ((buf ++ c) ++ cs.flatten)).1 = q :: qs := by
            rw [← hjoin]; exact hq
          have := ih maxP env i (buf ++ c) file q qs hnobc hq2 hover
          obtain ⟨e1, e2, e3⟩ := this
          exact ⟨by simpa using e1, e2, e3⟩

/-! ### Processing one newline-terminated packet delivered as one chunk -/

theorem connection_handler_data_single (maxP : Nat) (env : Nat → PacketEnv)
    (i : Nat) (p file : List Nat) (hp : 10 ∉ p) (hs : p.length + 1 ≤ maxP) :
    connection_handler_data maxP env i [] file (p ++ [10]) =
      (let e := env i
      let w := write_data_to_file e.wOpenErr (e.wr (p ++ [10]).length)
        file (p ++ [10])
      if w.2 = 0 then
        let r := read_and_send_file e.rOpenErr e.sr w.1
        ⟨i + 1, [], w.1,
          [.append (p ++ [10]) true, .reply r.1 (r.2 = 0)], false⟩
      else ⟨i + 1, [], w.1, [.append (p ++ [10]) false], false⟩) := by
  rw [connection_handler_data_eq_some maxP env i [] file (p ++ [10])
    (p ++ [10]) [] (memchrSplit_terminated p hp)]
  have hsz : ¬ ([] : List Nat).length + (p ++ [10]).length > maxP := by
    simp only [List.length_nil, List.length_append, List.length_cons,
      List.length_nil]
    omega
  rw [if_neg hsz]
  dsimp only
  simp only [List.nil_append]
  by_cases hw : (write_data_to_file (env i).wOpenErr
      ((env i).wr (p ++ [10]).length) file (p ++ [10])).2 = 0
  · rw [if_pos hw, if_pos hw]
    rw [connection_handler_data_nil]
  · rw [if_neg hw, if_neg hw]
    rw [connection_handler_data_nil]

/-- C1: on a single connection with the log initially empty, no concurrent
writers and all I/O succeeding, every completed packet produces exactly one
append (of that packet) immediately followed by exactly one read-all reply,
and each reply equals the whole log right after that packet's own append
(`pairsOf` pairs every packet with a reply equal to the file extended by it);
the final log is the concatenation of the packets.  Instantiated on
`"hello\n"` then `"world\n"` by the witness, giving replies `"hello\n"` and
`"hello\nworld\n"`. -/
theorem connection_per_packet_reply (maxP : Nat) (cs : List (List Nat))
    (hab : (connection_handler maxP allOkEnv 0 [] [] cs).aborted = false) :
    (connection_handler maxP allOkEnv 0 [] [] cs).events
        = pairsOf [] (splitPacketsSpec cs.flatten).1
      ∧ (connection_handler maxP allOkEnv 0 [] [] cs).file
        = (splitPacketsSpec cs.flatten).1.flatten := by
  have h := connection_handler_allOk cs maxP 0 [] [] (by simp) hab
  simpa using h

/-- Witness for C1: the `"hello\n"` / `"world\n"` scenario of the claim. -/
theorem connection_per_packet_reply_witness :
    (connection_handler 100 allOkEnv 0 [] [] [helloChunk, worldChunk]).events
      = [.append helloChunk true, .reply helloChunk true,
         .append worldChunk true, .reply (helloChunk ++ worldChunk) true] := by
  have h := connection_per_packet_reply 100 [helloChunk, worldChunk] (by decide)
  exact h.1.trans (by decide)

/-- C2: for every sequence of raw received chunks (and any I/O outcomes),
as long as the size ceiling is not hit, the packets the handler commits are
exactly the newline-terminated packets of the concatenated byte stream in
order, the accumulation buffer afterwards holds exactly the unterminated
remainder, and a chunk containing no newline is appended whole to the
accumulation with no packet emitted. -/
theorem assembler_emits_packets (maxP : Nat) (env : Nat → PacketEnv)
    (cs : List (List Nat)) (file0 : List Nat)
    (hab : (connection_handler maxP env 0 [] file0 cs).aborted = false) :
    appendsOf (connection_handler maxP env 0 [] file0 cs).events
        = (splitPacketsSpec cs.flatten).1
      ∧ (connection_handler maxP env 0 [] file0 cs).buf
        = (splitPacketsSpec cs.flatten).2
      ∧ ∀ (i : Nat) (buf file c : List Nat), 10 ∉ c →
          ¬ buf.length + c.length > maxP → c ≠ [] →
          connection_handler_data maxP env i buf file c
            = ⟨i, buf ++ c, file, [], false⟩ := by
  have h := connection_handler_appends_general cs maxP env 0 [] file0 (by simp) hab
  refine ⟨by simpa using h.1, by simpa using h.2.1, ?_⟩
  intro i buf file c h10 hsz hne
  rw [connection_handler_data_eq_none maxP env i buf file c
    ((memchrSplit_eq_none_iff c).mpr h10) hne, if_neg hsz]

/-- Witness for C2: the stream `"h\nw" ++ "o\n"` splits into the packets
`"h\n"`, `"wo\n"`; a newline-free chunk is only accumulated. -/
theorem assembler_emits_packets_witness :
    appendsOf (connection_handler 10 allOkEnv 0 [] []
        [[104, 10, 119], [111, 10]]).events = [[104, 10], [119, 111, 10]]
    ∧ connection_handler_data 10 allOkEnv 0 [97] [] [98, 99]
        = ⟨0, [97, 98, 99], [], [], false⟩ := by
  have h := assembler_emits_packets 10 allOkEnv [[104, 10, 119], [111, 10]] []
    (by decide)
  exact ⟨h.1.trans (by decide), h.2.2 0 [97] [] [98, 99] (by decide)
    (by decide) (by decide)⟩

/-- C3: a packet whose total size including the terminating newline equals
the configured maximum packet size is accepted, appended and answered; a
packet one byte larger makes the handler abort the connection with no byte
of that packet ever appended to the log and no reply sent.  The packet may
arrive split across any number of `recv` chunks. -/
theorem packet_size_boundary (maxP : Nat) (p file0 : List Nat)
    (cs : List (List Nat)) (hp : 10 ∉ p) (hcs : cs.flatten = p ++ [10]) :
    (p.length + 1 = maxP →
        (connection_handler maxP allOkEnv 0 [] file0 cs).aborted = false
        ∧ (connection_handler maxP allOkEnv 0 [] file0 cs).events
            = [.append (p ++ [10]) true, .reply (file0 ++ (p ++ [10])) true]
        ∧ (connection_handler maxP allOkEnv 0 [] file0 cs).file
            = file0 ++ (p ++ [10]))
    ∧ (p.length + 1 = maxP + 1 →
        (connection_handler maxP allOkEnv 0 [] file0 cs).events = []
        ∧ (connection_handler maxP allOkEnv 0 [] file0 cs).file = file0
        ∧ (connection_handler maxP allOkEnv 0 [] file0 cs).aborted = true) := by
  have hsplit : splitPacketsSpec (([] : List Nat) ++ cs.flatten)
      = ([p ++ [10]], []) := by
    rw [List.nil_append, hcs]
    exact splitPacketsSpec_terminated p hp
  constructor
  · intro hlen
    have hab : (connection_handler maxP allOkEnv 0 [] file0 cs).aborted = false := by
      refine connection_handler_no_abort cs maxP allOkEnv 0 [] file0 (by simp)
        ?_ ?_
      · intro q hq
        rw [hsplit] at hq
        simp only [List.mem_singleton] at hq
        subst hq
        simp only [List.length_append, List.length_cons, List.length_nil]
        omega
      · rw [hsplit]
        simp
    have h := connection_handler_allOk cs maxP 0 [] file0 (by simp) hab
    rw [hsplit] at h
    refine ⟨hab, ?_, ?_⟩
    · rw [h.1]
      simp [pairsOf]
    · rw [h.2]
      simp
  · intro hlen
    refine connection_handler_oversize cs maxP allOkEnv 0 [] file0 (p ++ [10]) []
      (by simp) (by rw [hsplit]) ?_
    simp only [List.length_append, List.length_cons, List.length_nil]
    omega

/-- Witness for C3: with a maximum packet size of 4, the packet
`"abc\n"` (4 bytes, arriving as `"ab"` then `"c\n"`) is accepted and
answered; with a maximum of 3 the same packet aborts the connection with an
untouched log and no events. -/
theorem packet_size_boundary_witness :
    ((connection_handler 4 allOkEnv 0 [] [] [[97, 98], [99, 10]]).events
        = [.append [97, 98, 99, 10] true, .reply [97, 98, 99, 10] true])
    ∧ (connection_handler 3 allOkEnv 0 [] [] [[97, 98], [99, 10]]).events = []
    ∧ (connection_handler 3 allOkEnv 0 [] [] [[97, 98], [99, 10]]).aborted
        = true := by
  refine ⟨?_, ?_, ?_⟩
  · have h := (packet_size_boundary 4 [97, 98, 99] [] [[97, 98], [99, 10]]
      (by decide) (by decide)).1 (by decide)
    exact h.2.1.trans (by decide)
  · exact ((packet_size_boundary 3 [97, 98, 99] [] [[97, 98], [99, 10]]
      (by decide) (by decide)).2 (by decide)).1
  · exact ((packet_size_boundary 3 [97, 98, 99] [] [[97, 98], [99, 10]]
      (by decide) (by decide)).2 (by decide)).2.2

/-- Counterexample to C4 as stated: the claim says a failed read-all/send of
the reply closes the connection, but in the source the handler only logs the
failure and keeps the connection open.  Concretely, with the first packet's
reply send failing after 1 byte, the handler still commits and answers the
second packet (four events, not the two the claim would allow). -/
theorem send_failure_closes_counterexample :
    (connection_handler 10 (envReadFail 1) 0 [] [] [[97, 10], [98, 10]]).events
        = [.append [97, 10] true, .reply [97] false,
           .append [98, 10] true, .reply [97, 10, 98, 10] true]
    ∧ (connection_handler 10 (envReadFail 1) 0 [] [] [[97, 10], [98, 10]]).events
        ≠ [.append [97, 10] true, .reply [97] false] := by
  decide

/-- C4 (amended): when the append of a completed packet fails, the handler
logs the failure, drops the packet without retrying and without sending a
reply, and the connection remains open for subsequent packets; when the
read-all/send of the reply fails, the handler logs the failure and the
connection likewise remains open for subsequent packets (the source never
closes the connection on a reply failure — it only logs at line 448 and
continues). -/
theorem append_or_send_failure_keeps_connection (maxP : Nat)
    (p1 p2 file0 : List Nat) (k : Nat) (h1 : 10 ∉ p1) (h2 : 10 ∉ p2)
    (hs1 : p1.length + 1 ≤ maxP) (hs2 : p2.length + 1 ≤ maxP) :
    (connection_handler maxP envWriteFail 0 [] file0
        [p1 ++ [10], p2 ++ [10]]).events
      = [.append (p1 ++ [10]) false,
         .append (p2 ++ [10]) true, .reply (file0 ++ (p2 ++ [10])) true]
    ∧ (connection_handler maxP (envReadFail k) 0 [] file0
        [p1 ++ [10], p2 ++ [10]]).events
      = [.append (p1 ++ [10]) true, .reply ((file0 ++ (p1 ++ [10])).take k) false,
         .append (p2 ++ [10]) true,
         .reply (file0 ++ (p1 ++ [10]) ++ (p2 ++ [10])) true] := by
  constructor
  · have hw1 : write_data_to_file (envWriteFail 0).wOpenErr
        ((envWriteFail 0).wr (p1 ++ [10]).length) file0 (p1 ++ [10])
          = (file0, -1) := rfl
    have hw2 : write_data_to_file (envWriteFail 1).wOpenErr
        ((envWriteFail 1).wr (p2 ++ [10]).length) file0 (p2 ++ [10])
          = (file0 ++ (p2 ++ [10]), 0) :=
      write_data_to_file_allOk file0 (p2 ++ [10])
    have hr2 : read_and_send_file (envWriteFail 1).rOpenErr (envWriteFail 1).sr
        (file0 ++ (p2 ++ [10])) = (file0 ++ (p2 ++ [10]), 0) := rfl
    rw [connection_handler_cons]
    dsimp only
    rw [connection_handler_data_single maxP envWriteFail 0 p1 file0 h1 hs1]
    dsimp only
    rw [hw1]
    dsimp only
    rw [if_neg (by decide : ¬ ((-1 : Int) = 0))]
    dsimp only
    rw [if_neg Bool.false_ne_true]
    dsimp only
    rw [connection_handler_cons]
    dsimp only
    rw [connection_handler_data_single maxP envWriteFail 1 p2 file0 h2 hs2]
    dsimp only
    rw [hw2]
    dsimp only
    rw [if_pos (rfl : (0 : Int) = 0)]
    dsimp only
    rw [hr2]
    dsimp only
    rw [if_neg Bool.false_ne_true, connection_handler_nil]
    simp
  · have hw1 : write_data_to_file ((envReadFail k) 0).wOpenErr
        (((envReadFail k) 0).wr (p1 ++ [10]).length) file0 (p1 ++ [10])
          = (file0 ++ (p1 ++ [10]), 0) :=
      write_data_to_file_allOk file0 (p1 ++ [10])
    have hr1 : read_and_send_file ((envReadFail k) 0).rOpenErr
        ((envReadFail k) 0).sr (file0 ++ (p1 ++ [10]))
          = ((file0 ++ (p1 ++ [10])).take k, -1) := rfl
    have hw2 : write_data_to_file ((envReadFail k) 1).wOpenErr
        (((envReadFail k) 1).wr (p2 ++ [10]).length) (file0 ++ (p1 ++ [10]))
          (p2 ++ [10])
          = ((file0 ++ (p1 ++ [10])) ++ (p2 ++ [10]), 0) :=
      write_data_to_file_allOk (file0 ++ (p1 ++ [10])) (p2 ++ [10])
    have hr2 : read_and_send_file ((envReadFail k) 1).rOpenErr
        ((envReadFail k) 1).sr ((file0 ++ (p1 ++ [10])) ++ (p2 ++ [10]))
          = ((file0 ++ (p1 ++ [10])) ++ (p2 ++ [10]), 0) := rfl
    rw [connection_handler_cons]
    dsimp only
    rw [connection_handler_data_single maxP (envReadFail k) 0 p1 file0 h1 hs1]
    dsimp only
    rw [hw1]
    dsimp only
    rw [if_pos (rfl : (0 : Int) = 0)]
    dsimp only
    rw [hr1]
    dsimp only
    rw [if_neg Bool.false_ne_true]
    dsimp only
    rw [connection_handler_cons]
    dsimp only
    rw [connection_handler_data_single maxP (envReadFail k) 1 p2
      (file0 ++ (p1 ++ [10])) h2 hs2]
    dsimp only
    rw [hw2]
    dsimp only
    rw [if_pos (rfl : (0 : Int) = 0)]
    dsimp only
    rw [hr2]
    dsimp only
    rw [if_neg Bool.false_ne_true, connection_handler_nil]
    simp

/-- Witness for C4 (amended), at packets `"a\n"`, `"b\n"`, maximum size 2,
empty initial log, reply failure after 1 byte. -/
theorem append_or_send_failure_keeps_connection_witness :
    (connection_handler 2 envWriteFail 0 [] [] [[97, 10], [98, 10]]).events
        = [.append [97, 10] false, .append [98, 10] true, .reply [98, 10] true]
    ∧ (connection_handler 2 (envReadFail 1) 0 [] [] [[97, 10], [98, 10]]).events
        = [.append [97, 10] true, .reply [97] false,
           .append [98, 10] true, .reply [97, 10, 98, 10] true] := by
  have h := append_or_send_failure_keeps_connection 2 [97] [98] [] 1
    (by decide) (by decide) (by decide) (by decide)
  exact ⟨h.1.trans (by decide), h.2.trans (by decide)⟩

/-- Counterexample to C5 as stated: the claim says `joinAll`
(`wait_for_all_threads`) first forces each registered entry's client socket
closed before joining; the source function contains no `close`/`shutdown`
call, so a registered entry's socket (descriptor 5) is still open after it
returns. -/
theorem joinall_closes_sockets_counterexample :
    5 ∈ (wait_for_all_threads [⟨1, true, 5⟩] [5]).2.2
    ∧ (wait_for_all_threads [⟨1, true, 5⟩] [5]).2.2 = [5] := by
  decide

/-- C5 (amended): `wait_for_all_threads` waits for every registered handler
to finish and removes its entry — afterwards no registered handler remains
and the active count is zero — but it does not close any client socket: the
set of open descriptors is unchanged (so a handler blocked in `recv` is
never unblocked by it). -/
theorem wait_for_all_threads_joins_all (pool : List ThreadInfo)
    (fds : List Nat) :
    (∀ t ∈ (wait_for_all_threads pool fds).1, t.active = false)
    ∧ (wait_for_all_threads pool fds).2.1 = 0
    ∧ (wait_for_all_threads pool fds).2.2 = fds := by
  refine ⟨?_, rfl, rfl⟩
  intro t ht
  simp only [wait_for_all_threads, List.mem_map] at ht
  obtain ⟨u, _, hu⟩ := ht
  rw [← hu]

/-- C6: while the shutdown flag is unset, every timeout-caused wake of the
Timestamp Task appends exactly one `timestamp:<datetime>\n` record to the
log (and nothing else changes it); in particular one idle window starting
from an empty log leaves the log equal to exactly one such line.
The Timestamp Task is modelled from the spec, as src/server/aesdsocket.c is
the bounded-pool revision without it. -/
theorem timestamp_task_appends_records :
    (∀ (log : List Nat) (evs : List (Bool × TsWake)),
        timestampRun log evs = log ++ timestampRecords evs)
    ∧ ∀ dt : List Nat,
        timestampRun [] [(false, .timeout dt)] = tsPrefix ++ dt ++ [10] := by
  constructor
  · intro log evs
    induction evs generalizing log with
    | nil => simp [timestampRun, timestampRecords]
    | cons e rest ih =>
      obtain ⟨sd, w⟩ := e
      cases sd
      · cases w with
        | timeout dt =>
          simp [timestampRun, timestampRecords, ih, List.append_assoc]
        | explicitWake => simp [timestampRun, timestampRecords, ih]
      · simp [timestampRun, timestampRecords]
  · intro dt
    simp [timestampRun, timestampRecords, timestampRecord]

/-- C7: with every shared-log operation modelled as one atomic step (each
holds `file_mutex` for its whole body, so concurrent handlers and the
timestamp task produce some sequence of operations in lock-acquisition
order, never interleaving at the byte level), and with all the appends
fully succeeding, every read-all sends exactly the initial file followed by
the data of the appends that completed before it in that order, and the
final file is the initial file followed by all appended data — no torn
reads. -/
theorem log_ops_serialized (file : List Nat) (ops : List LogOp)
    (hok : ∀ op ∈ ops, opOk op) :
    runOps file ops = (file ++ appendedData ops, expectedOutputs file ops) := by
  induction ops generalizing file with
  | nil => simp [runOps, appendedData, expectedOutputs]
  | cons op rest ih =>
    have hrest : ∀ op ∈ rest, opOk op :=
      fun op hop => hok op (List.mem_cons_of_mem _ hop)
    cases op with
    | append d oe wres =>
      have hop := hok (.append d oe wres) (List.mem_cons_self _ _)
      simp only [opOk] at hop
      obtain ⟨hoe, hwres⟩ := hop
      subst hoe; subst hwres
      simp only [runOps, appendedData, expectedOutputs,
        write_data_to_file_allOk, ih _ hrest]
      simp [List.append_assoc]
    | readAll oe sr =>
      have hop := hok (.readAll oe sr) (List.mem_cons_self _ _)
      simp only [opOk] at hop
      obtain ⟨hoe, hsr⟩ := hop
      subst hoe; subst hsr
      simp only [runOps, appendedData, expectedOutputs, read_and_send_file,
        ih _ hrest]

/-- Witness for C7: two appends interleaved with two read-alls; each
read-all sees exactly the appends before it. -/
theorem log_ops_serialized_witness :
    runOps [] [.append [1, 2] none (some 2), .readAll none .ok,
        .append [3] none (some 1), .readAll none .ok]
      = ([1, 2, 3], [[1, 2], [1, 2, 3]]) := by
  have h := log_ops_serialized []
    [.append [1, 2] none (some 2), .readAll none .ok,
      .append [3] none (some 1), .readAll none .ok]
    (by decide)
  exact h.trans (by decide)

/-- C8: when the data file does not exist (`open(DATA_FILE, O_RDONLY)`
fails with `ENOENT`, errno 2), `read_and_send_file` is not an error: it
returns success (0) having sent zero bytes. -/
theorem read_missing_file_success (sr : SendResult) (file : List Nat) :
    read_and_send_file (some 2) sr file = ([], 0) := rfl

/-- C9: `read_and_send_file` returns success with zero bytes sent for every
open failure whatsoever — the source never inspects errno after the failed
open (lines 204-209), so permission errors, descriptor exhaustion, etc. are
all reported to the caller as success. -/
theorem read_open_failure_success (e : Nat) (sr : SendResult)
    (file : List Nat) :
    read_and_send_file (some e) sr file = ([], 0) := rfl

/-- C10: the append operation is not atomic with respect to its own
failure: when the single `write` stores only `n < length` bytes,
`write_data_to_file` reports -1, yet the `n` stored bytes remain in the
file, so the log changes even though append returned failure. -/
theorem append_partial_write_error (file data : List Nat) (n : Nat)
    (h : n < data.length) :
    write_data_to_file none (some n) file data = (file ++ data.take n, -1)
    ∧ (0 < n → file ++ data.take n ≠ file) := by
  constructor
  · have hne : n ≠ data.length := by omega
    simp [write_data_to_file, hne]
  · intro hn hfe
    have hlen := congrArg List.length hfe
    rw [List.length_append, List.length_take,
      Nat.min_eq_left (Nat.le_of_lt h)] at hlen
    omega

/-- Witness for C10: a 2-byte append of which only 1 byte is written fails
with -1 while the log has still grown by that byte. -/
theorem append_partial_write_error_witness :
    write_data_to_file none (some 1) [7] [8, 9] = ([7, 8], -1)
    ∧ [7] ++ [8, 9].take 1 ≠ [7] := by
  have h := append_partial_write_error [7] [8, 9] 1 (by decide)
  exact ⟨h.1.trans (by decide), h.2 (by decide)⟩
